import Mathlib

/-!
Shallow embedding of the `tk` shell-history parser (src/token.rs, src/parse.rs,
src/main.rs).  Input lines are modelled as `List Char`; the Rust span-carrying
token variants store the referenced text itself, since every use of a span in
the source goes through `String::from`, which extracts exactly that text.
The tokenizer state (a `CharIndices` cursor) is modelled as the list of not yet
consumed characters.
-/

namespace Tk

/-- Token error type, from `token.rs` `enum Error`. -/
inductive TokError where
  | missingEscapedChar
  | eos
deriving DecidableEq

/-- Lexer token, from `token.rs` `enum Token`.  The `spaces`, `string` and
`quotedString` variants carry the text their Rust span references. -/
inductive Token where
  | ampersand
  | asterisk
  | closeBrace
  | closeBracket
  | closeParenthesis
  | doubleQuote
  | dollar
  | equal
  | greaterThan
  | lesserThan
  | newline
  | openBrace
  | openBracket
  | openParenthesis
  | semicolon
  | tilda
  | verticalBar
  | spaces (s : List Char)
  | string (s : List Char)
  | quotedString (s : List Char)
deriving DecidableEq

/-- The single-character tokens, from `impl TryFrom of char for Token` in
`token.rs`: `some t` exactly when the Rust `try_from(c)` returns `Ok(t)`. -/
def charToken : Char → Option Token
  | '&' => some .ampersand
  | '*' => some .asterisk
  | '}' => some .closeBrace
  | ']' => some .closeBracket
  | ')' => some .closeParenthesis
  | '"' => some .doubleQuote
  | '$' => some .dollar
  | '=' => some .equal
  | '>' => some .greaterThan
  | '<' => some .lesserThan
  | '\n' => some .newline
  | '{' => some .openBrace
  | '[' => some .openBracket
  | '(' => some .openParenthesis
  | ';' => some .semicolon
  | '~' => some .tilda
  | '|' => some .verticalBar
  | _ => none

/-- Text of a token, from `impl From of Token for String` in `token.rs`:
the span text for the three span variants, the mapped character otherwise. -/
def tokenText : Token → List Char
  | .ampersand => ['&']
  | .asterisk => ['*']
  | .closeBrace => ['}']
  | .closeBracket => [']']
  | .closeParenthesis => [')']
  | .doubleQuote => ['"']
  | .dollar => ['$']
  | .equal => ['=']
  | .greaterThan => ['>']
  | .lesserThan => ['<']
  | .newline => ['\n']
  | .openBrace => ['{']
  | .openBracket => ['[']
  | .openParenthesis => ['(']
  | .semicolon => [';']
  | .tilda => ['~']
  | .verticalBar => ['|']
  | .spaces s => s
  | .string s => s
  | .quotedString s => s

/-- Space or tab, the characters matched by the whitespace arm of
`Tokenizer::next` and by the `" \t".contains(c)` test in `raw_string`. -/
def isSpaceTab (c : Char) : Bool := c == ' ' || c == '\t'

/-- `Tokenizer::single_quoted_string`: scan to the next single quote,
returning the content before it and the rest after it; `none` models
`Err(Eos)` when no closing quote exists. -/
def singleQuotedString : List Char → Option (List Char × List Char)
  | [] => none
  | c :: r =>
    if c = '\'' then some ([], r)
    else
      match singleQuotedString r with
      | some p => some (c :: p.1, p.2)
      | none => none

/-- `Tokenizer::spaces` together with the first whitespace character already
consumed by `Tokenizer::next`: splits off the maximal run of spaces and tabs
(the `while eatc(' ') || eatc('\t')` loop). -/
def spacesRun : List Char → List Char × List Char
  | [] => ([], [])
  | c :: r =>
    if isSpaceTab c then
      match spacesRun r with
      | p => (c :: p.1, p.2)
    else ([], c :: r)

/-- `Tokenizer::raw_string`.  `acc` holds the characters of the run consumed so
far (the first one was consumed by `Tokenizer::next` before the call).  A
backslash seen by this scan consumes itself and the following character as
literal text, failing with `MissingEscapedChar` when no character follows;
the scan stops before any mapped single-character token or space or tab. -/
def rawString (acc : List Char) : List Char → Except TokError (List Char × List Char)
  | [] => .ok (acc, [])
  | c :: r =>
    if c = '\\' then
      match r with
      | [] => .error .missingEscapedChar
      | d :: r' => rawString (acc ++ [c, d]) r'
    else if (charToken c).isSome || isSpaceTab c then .ok (acc, c :: r)
    else rawString (acc ++ [c]) r

/-- `Tokenizer::next`: produce one token and the remaining input, or an error.
An error leaves the Rust iterator exhausted, which `advance` accounts for. -/
def tokNext : List Char → Except TokError (Token × List Char)
  | [] => .error .eos
  | c :: r =>
    if c = '\'' then
      match singleQuotedString r with
      | some p => .ok (.quotedString p.1, p.2)
      | none => .error .eos
    else if isSpaceTab c then
      match spacesRun r with
      | p => .ok (.spaces (c :: p.1), p.2)
    else
      match charToken c with
      | some t => .ok (t, r)
      | none =>
        match rawString [c] r with
        | .ok p => .ok (.string p.1, p.2)
        | .error e => .error e

/-- State left by a Rust `next()` call whose result is discarded (the
`let _ = self.next()` pattern): on success the rest after the token, on error
the empty rest, because both error paths of `Tokenizer::next` (end of input,
and the unterminated-quote and dangling-escape scans) exhaust the iterator. -/
def advance (l : List Char) : List Char :=
  match tokNext l with
  | .ok p => p.2
  | .error _ => []

/-- Characters consumed from the input when `tokNext` produces a token: the
token text, except that a quoted string additionally consumed its two
delimiting single quotes. -/
def tokenConsumed : Token → List Char
  | .quotedString s => '\'' :: s ++ ['\'']
  | t => tokenText t

theorem singleQuotedString_shape : ∀ {l : List Char} {p},
    singleQuotedString l = some p → l = p.1 ++ '\'' :: p.2 := by
  intro l
  induction l with
  | nil => intro p h; simp [singleQuotedString] at h
  | cons c r ih =>
    intro p h
    by_cases hc : c = '\''
    · simp only [singleQuotedString, if_pos hc, Option.some.injEq] at h
      subst h
      subst hc
      simp
    · simp only [singleQuotedString, if_neg hc] at h
      cases hq : singleQuotedString r with
      | none => rw [hq] at h; exact absurd h (by simp)
      | some q =>
        rw [hq] at h
        simp only [Option.some.injEq] at h
        have := ih hq
        subst this
        simp [← h]

theorem singleQuotedString_none : ∀ {l : List Char}, '\'' ∉ l →
    singleQuotedString l = none := by
  intro l
  induction l with
  | nil => intro _; rfl
  | cons c r ih =>
    intro h
    have hc : c ≠ '\'' := fun hc => h (hc ▸ List.mem_cons_self c r)
    have hr : '\'' ∉ r := fun hm => h (List.mem_cons_of_mem c hm)
    simp [singleQuotedString, hc, ih hr]

theorem spacesRun_shape : ∀ l : List Char, l = (spacesRun l).1 ++ (spacesRun l).2 := by
  intro l
  induction l with
  | nil => rfl
  | cons c r ih =>
    by_cases hc : isSpaceTab c
    · simp only [spacesRun, if_pos hc]
      simpa using ih
    · simp [spacesRun, hc]

theorem rawString_shape_all : ∀ (acc l : List Char) (p : List Char × List Char),
    rawString acc l = .ok p → ∃ m, p.1 = acc ++ m ∧ l = m ++ p.2 := by
  intro acc l
  induction acc, l using rawString.induct with
  | case1 acc =>
    intro p h
    simp only [rawString, Except.ok.injEq] at h
    subst h
    exact ⟨[], by simp⟩
  | case2 acc =>
    intro p h
    simp [rawString] at h
  | case3 acc d r' ih =>
    intro p h
    simp only [rawString, if_pos rfl] at h
    obtain ⟨m, hm1, hm2⟩ := ih p h
    exact ⟨'\\' :: d :: m, by simp [hm1], by simp [hm2]⟩
  | case4 acc d r' hd hstop =>
    intro p h
    rw [rawString.eq_def] at h
    simp only [if_neg hd, if_pos hstop, Except.ok.injEq] at h
    subst h
    exact ⟨[], by simp⟩
  | case5 acc d r' hd hstop ih =>
    intro p h
    rw [rawString.eq_def] at h
    simp only [if_neg hd, if_neg hstop] at h
    obtain ⟨m, hm1, hm2⟩ := ih p h
    exact ⟨d :: m, by simp [hm1], by simp [hm2]⟩

theorem rawString_shape {l acc : List Char} {p} (h : rawString acc l = .ok p) :
    ∃ m, p.1 = acc ++ m ∧ l = m ++ p.2 :=
  rawString_shape_all acc l p h

/-- Every mapped single-character token's text is exactly that character. -/
theorem charToken_text : ∀ {c : Char} {t}, charToken c = some t → tokenText t = [c] := by
  intro c t h
  unfold charToken at h
  split at h <;>
    first
      | (injection h with h; subst h; rfl)
      | simp at h

/-- Every mapped single-character token consumed exactly that character. -/
theorem charToken_consumed : ∀ {c : Char} {t}, charToken c = some t →
    tokenConsumed t = [c] := by
  intro c t h
  unfold charToken at h
  split at h <;>
    first
      | (injection h with h; subst h; rfl)
      | simp at h

/-- A successful `tokNext` splits the input into the consumed characters of the
token and the rest, and always consumes at least one character. -/
theorem tokNext_shape : ∀ {l : List Char} {t r}, tokNext l = .ok (t, r) →
    l = tokenConsumed t ++ r ∧ tokenConsumed t ≠ [] := by
  intro l t r h
  match l with
  | [] => exact absurd h (by simp [tokNext])
  | c :: l' =>
    by_cases hq : c = '\''
    · simp only [tokNext, if_pos hq] at h
      cases hs : singleQuotedString l' with
      | none => rw [hs] at h; exact absurd h (by simp)
      | some p =>
        rw [hs] at h
        cases h
        have := singleQuotedString_shape hs
        subst hq
        constructor
        · simp [tokenConsumed, this]
        · simp [tokenConsumed]
    · by_cases hsp : isSpaceTab c
      · simp only [tokNext, if_neg hq, if_pos hsp] at h
        cases h
        refine ⟨?_, by simp [tokenConsumed, tokenText]⟩
        have := spacesRun_shape l'
        simp only [tokenConsumed, tokenText, List.cons_append, List.cons.injEq, true_and]
        exact this
      · simp only [tokNext, if_neg hq, if_neg hsp] at h
        cases hct : charToken c with
        | some t0 =>
          rw [hct] at h
          cases h
          rw [charToken_consumed hct]
          simp
        | none =>
          rw [hct] at h
          cases hrs : rawString [c] l' with
          | error e => rw [hrs] at h; exact absurd h (by simp)
          | ok p =>
            rw [hrs] at h
            cases h
            obtain ⟨m, hm1, hm2⟩ := rawString_shape hrs
            refine ⟨?_, by simp [tokenConsumed, tokenText, hm1]⟩
            simp [tokenConsumed, tokenText, hm1, hm2]

/-- A successful `tokNext` strictly shrinks the remaining input. -/
theorem tokNext_length {l : List Char} {t r} (h : tokNext l = .ok (t, r)) :
    r.length < l.length := by
  obtain ⟨hsplit, hne⟩ := tokNext_shape h
  rw [hsplit, List.length_append]
  cases hc : tokenConsumed t with
  | nil => exact absurd hc hne
  | cons a s => simp [hc]

/-- `advance` never grows the remaining input. -/
theorem advance_le (l : List Char) : (advance l).length ≤ l.length := by
  unfold advance
  cases h : tokNext l with
  | ok p =>
    obtain ⟨t, r⟩ := p
    simpa using Nat.le_of_lt (tokNext_length h)
  | error e => simp

/-- Parse error type, from `parse.rs` `enum Error`. -/
inductive ParseError where
  | noCloseDoubleQuote
  | eos
  | tokenErr (e : TokError)
deriving DecidableEq

/-- Parser word, from `parse.rs` `enum Word`.  `Word.variable'` models
`Word::Variable` together with its `struct Variable` payload. -/
inductive Word where
  | and
  | or
  | pipe
  | terminator
  | string (s : List Char)
  | variable' (name : List Char) (value : List Char)
deriving DecidableEq

/-- `is_variable_name` from `parse.rs`: the first character must not be a
digit, and every character must be alphanumeric or an underscore.  Rust's
`char::is_alphanumeric` is Unicode-aware; `Char.isAlphanum` agrees with it on
the ASCII range, the range the claims exercise. -/
def isVariableName (s : List Char) : Bool :=
  match s with
  | [] => true
  | c :: r =>
    !c.isDigit && (c.isAlphanum || c == '_') && r.all fun d => d.isAlphanum || d == '_'

/-- `Parser::double_quoted_string`: pull tokens with `next`, concatenating
their text, until the closing double quote; end of input yields
`NoCloseDoubleQuote`, any other lexer error is wrapped in `TokenErr`. -/
def dquote (acc : List Char) (l : List Char) : Except ParseError (List Char × List Char) :=
  match h : tokNext l with
  | .ok (.doubleQuote, r) => .ok (acc, r)
  | .ok (t, r) => dquote (acc ++ tokenText t) r
  | .error .eos => .error .noCloseDoubleQuote
  | .error e => .error (.tokenErr e)
termination_by l.length
decreasing_by exact tokNext_length h

/-- `Parser::value`, the assignment-value scan.  A double quote hands the
whole result over to the double-quoted scan, discarding the text accumulated
in `s`; the five delimiter tokens stop the scan without being consumed; any
lexer error, including plain end of input, is wrapped in `TokenErr`. -/
def valueScan (s : List Char) (l : List Char) : Except ParseError (List Char × List Char) :=
  match h : tokNext l with
  | .ok (.doubleQuote, r) => dquote [] r
  | .ok (.newline, _) => .ok (s, l)
  | .ok (.semicolon, _) => .ok (s, l)
  | .ok (.spaces _, _) => .ok (s, l)
  | .ok (.ampersand, _) => .ok (s, l)
  | .ok (.verticalBar, _) => .ok (s, l)
  | .ok (t, r) => valueScan (s ++ tokenText t) r
  | .error e => .error (.tokenErr e)
termination_by l.length
decreasing_by exact tokNext_length h

/-- `Parser::next_word`.  `value` holds the accumulated literal text and
`found` the `is_somethihg_found` flag; `l` is the unread input.  Each arm
mirrors one arm of the Rust `match self.peek_token()`; the `let _ =
self.next()` consumptions are made explicit through the rest lists that
`tokNext` returns, through `advance`, and through the empty rest left behind
by a failing `next` at end of input. -/
def nextWord (value : List Char) (found : Bool) (l : List Char) :
    Except ParseError (Word × List Char) :=
  match h : tokNext l with
  | .ok (.ampersand, r1) =>
    match tokNext r1 with
    | .ok (.ampersand, r2) => .ok (.and, advance r2)
    | _ => .ok (.terminator, r1)
  | .ok (.verticalBar, r1) =>
    match tokNext r1 with
    | .ok (.verticalBar, r2) => .ok (.or, advance r2)
    | _ => .ok (.pipe, r1)
  | .ok (.newline, r1) =>
    if found then .ok (.string value, l) else .ok (.terminator, r1)
  | .ok (.semicolon, r1) =>
    if found then .ok (.string value, l) else .ok (.terminator, r1)
  | .ok (.spaces _, r1) =>
    if found then .ok (.string value, r1) else nextWord value false r1
  | .ok (.doubleQuote, r1) =>
    match dquote [] r1 with
    | .ok p => .ok (.string p.1, p.2)
    | .error e => .error e
  | .ok (.string s, r1) =>
    if isVariableName s then
      match tokNext r1 with
      | .ok (.equal, r2) =>
        match valueScan [] r2 with
        | .ok p => .ok (.variable' s p.1, p.2)
        | .error e => .error e
      | _ => nextWord (value ++ s) true r1
    else nextWord (value ++ s) true r1
  | .ok (t, r1) => nextWord (value ++ tokenText t) true r1
  | .error .eos => if found then .ok (.string value, []) else .error .eos
  | .error e => .error (.tokenErr e)
termination_by l.length
decreasing_by all_goals exact tokNext_length h

theorem dquote_suffix_aux : ∀ (n : Nat) (l : List Char), l.length ≤ n →
    ∀ (acc : List Char) p, dquote acc l = .ok p → ∃ d, l = d ++ p.2 := by
  intro n
  induction n with
  | zero =>
    intro l hl acc p hp
    have hnil : l = [] := List.eq_nil_of_length_eq_zero (Nat.le_zero.mp hl)
    subst hnil
    rw [dquote.eq_def] at hp
    split at hp <;> simp_all [tokNext]
  | succ n ih =>
    intro l hl acc p hp
    rw [dquote.eq_def] at hp
    split at hp
    · rename_i r heq
      cases hp
      obtain ⟨hsp, -⟩ := tokNext_shape heq
      exact ⟨tokenConsumed .doubleQuote, by simpa using hsp⟩
    · rename_i t r hne heq
      have hr : r.length ≤ n := by
        have := tokNext_length heq
        omega
      obtain ⟨d, hd⟩ := ih r hr (acc ++ tokenText t) p hp
      obtain ⟨hsp, -⟩ := tokNext_shape heq
      exact ⟨tokenConsumed t ++ d, by rw [hsp, hd]; simp⟩
    · exact absurd hp (by simp)
    · exact absurd hp (by simp)

/-- The double-quoted scan only consumes input: its remaining input is a
suffix of what it was given. -/
theorem dquote_suffix {acc l : List Char} {p} (h : dquote acc l = .ok p) :
    ∃ d, l = d ++ p.2 :=
  dquote_suffix_aux l.length l le_rfl acc p h

theorem suffix_trans {l r m : List Char} (h1 : ∃ d, l = d ++ r)
    (h2 : ∃ d, r = d ++ m) : ∃ d, l = d ++ m := by
  obtain ⟨d1, hd1⟩ := h1
  obtain ⟨d2, hd2⟩ := h2
  exact ⟨d1 ++ d2, by simp [hd1, hd2]⟩

theorem suffix_len {l r : List Char} (h : ∃ d, l = d ++ r) :
    r.length ≤ l.length := by
  obtain ⟨d, hd⟩ := h
  simp [hd]

theorem tokNext_suffix {l : List Char} {t r} (h : tokNext l = .ok (t, r)) :
    ∃ d, l = d ++ r :=
  ⟨tokenConsumed t, (tokNext_shape h).1⟩

theorem advance_suffix (l : List Char) : ∃ d, l = d ++ advance l := by
  unfold advance
  cases h : tokNext l with
  | ok p =>
    obtain ⟨t, r⟩ := p
    exact tokNext_suffix h
  | error e => exact ⟨l, by simp⟩

theorem valueScan_suffix_aux : ∀ (n : Nat) (l : List Char), l.length ≤ n →
    ∀ (s : List Char) p, valueScan s l = .ok p → ∃ d, l = d ++ p.2 := by
  intro n
  induction n with
  | zero =>
    intro l hl s p hp
    have hnil : l = [] := List.eq_nil_of_length_eq_zero (Nat.le_zero.mp hl)
    subst hnil
    rw [valueScan.eq_def] at hp
    split at hp <;> simp_all [tokNext]
  | succ n ih =>
    intro l hl s p hp
    rw [valueScan.eq_def] at hp
    split at hp
    · rename_i r heq
      exact suffix_trans (tokNext_suffix heq) (dquote_suffix hp)
    · cases hp; exact ⟨[], by simp⟩
    · cases hp; exact ⟨[], by simp⟩
    · cases hp; exact ⟨[], by simp⟩
    · cases hp; exact ⟨[], by simp⟩
    · cases hp; exact ⟨[], by simp⟩
    · rename_i heq
      have hr := tokNext_length heq
      obtain ⟨d, hd⟩ := ih _ (by omega) _ p hp
      exact suffix_trans (tokNext_suffix heq) ⟨d, hd⟩
    · exact absurd hp (by simp)

/-- The assignment-value scan only consumes input. -/
theorem valueScan_suffix {s l : List Char} {p} (h : valueScan s l = .ok p) :
    ∃ d, l = d ++ p.2 :=
  valueScan_suffix_aux l.length l le_rfl s p h

theorem nextWord_split_aux : ∀ (n : Nat) (l : List Char), l.length ≤ n →
    ∀ (value : List Char) (found : Bool) w r,
    nextWord value found l = .ok (w, r) →
    (∃ d, l = d ++ r) ∧ (found = false → r.length < l.length) := by
  intro n
  induction n with
  | zero =>
    intro l hl value found w r hp
    have hnil : l = [] := List.eq_nil_of_length_eq_zero (Nat.le_zero.mp hl)
    subst hnil
    rw [nextWord.eq_def] at hp
    split at hp <;> simp_all [tokNext]
    · cases hf : found <;> rw [hf] at hp <;> simp_all
  | succ n ih =>
    intro l hl value found w r hp
    rw [nextWord.eq_def] at hp
    split at hp
    · -- ampersand
      rename_i r1 heq
      split at hp
      · rename_i r2 heq2
        cases hp
        refine ⟨suffix_trans (tokNext_suffix heq)
          (suffix_trans (tokNext_suffix heq2) (advance_suffix r2)), fun _ => ?_⟩
        have h1 := tokNext_length heq
        have h2 := tokNext_length heq2
        have h3 := advance_le r2
        omega
      · cases hp
        exact ⟨tokNext_suffix heq, fun _ => tokNext_length heq⟩
    · -- vertical bar
      rename_i r1 heq
      split at hp
      · rename_i r2 heq2
        cases hp
        refine ⟨suffix_trans (tokNext_suffix heq)
          (suffix_trans (tokNext_suffix heq2) (advance_suffix r2)), fun _ => ?_⟩
        have h1 := tokNext_length heq
        have h2 := tokNext_length heq2
        have h3 := advance_le r2
        omega
      · cases hp
        exact ⟨tokNext_suffix heq, fun _ => tokNext_length heq⟩
    · -- newline
      rename_i r1 heq
      cases hf : found
      · rw [hf, if_neg (by simp)] at hp
        cases hp
        exact ⟨tokNext_suffix heq, fun _ => tokNext_length heq⟩
      · rw [hf, if_pos rfl] at hp
        cases hp
        exact ⟨⟨[], by simp⟩, fun hff => by simp at hff⟩
    · -- semicolon
      rename_i r1 heq
      cases hf : found
      · rw [hf, if_neg (by simp)] at hp
        cases hp
        exact ⟨tokNext_suffix heq, fun _ => tokNext_length heq⟩
      · rw [hf, if_pos rfl] at hp
        cases hp
        exact ⟨⟨[], by simp⟩, fun hff => by simp at hff⟩
    · -- spaces
      rename_i s1 r1 heq
      cases hf : found
      · rw [hf, if_neg (by simp)] at hp
        have hr1 := tokNext_length heq
        obtain ⟨hsfx, hstrict⟩ := ih _ (by omega) _ _ _ _ hp
        refine ⟨suffix_trans (tokNext_suffix heq) hsfx, fun _ => ?_⟩
        have := hstrict rfl
        omega
      · rw [hf, if_pos rfl] at hp
        cases hp
        exact ⟨tokNext_suffix heq, fun _ => tokNext_length heq⟩
    · -- double quote
      rename_i r1 heq
      split at hp
      · rename_i p1 hdq
        cases hp
        refine ⟨suffix_trans (tokNext_suffix heq) (dquote_suffix hdq), fun _ => ?_⟩
        have h1 := tokNext_length heq
        have h2 := suffix_len (dquote_suffix hdq)
        omega
      · exact absurd hp (by simp)
    · -- raw string token
      rename_i s1 r1 heq
      split at hp
      · -- assignment path
        split at hp
        · rename_i r2 heq2
          split at hp
          · rename_i p1 hvs
            cases hp
            refine ⟨suffix_trans (tokNext_suffix heq)
              (suffix_trans (tokNext_suffix heq2) (valueScan_suffix hvs)), fun _ => ?_⟩
            have h1 := tokNext_length heq
            have h2 := tokNext_length heq2
            have h3 := suffix_len (valueScan_suffix hvs)
            omega
          · exact absurd hp (by simp)
        · have hr1 := tokNext_length heq
          obtain ⟨hsfx, -⟩ := ih _ (by omega) _ _ _ _ hp
          refine ⟨suffix_trans (tokNext_suffix heq) hsfx, fun _ => ?_⟩
          have := suffix_len hsfx
          omega
      · have hr1 := tokNext_length heq
        obtain ⟨hsfx, -⟩ := ih _ (by omega) _ _ _ _ hp
        refine ⟨suffix_trans (tokNext_suffix heq) hsfx, fun _ => ?_⟩
        have := suffix_len hsfx
        omega
    · -- other tokens, pushed as literal text
      rename_i heq
      have hr1 := tokNext_length heq
      obtain ⟨hsfx, -⟩ := ih _ (by omega) _ _ _ _ hp
      refine ⟨suffix_trans (tokNext_suffix heq) hsfx, fun _ => ?_⟩
      have := suffix_len hsfx
      omega
    · -- end of input
      cases hf : found
      · rw [hf, if_neg (by simp)] at hp
        exact absurd hp (by simp)
      · rw [hf, if_pos rfl] at hp
        cases hp
        exact ⟨⟨l, by simp⟩, fun hff => by simp at hff⟩
    · exact absurd hp (by simp)

/-- `next_word` only consumes input, and when entered with nothing
accumulated it consumes at least one character before succeeding. -/
theorem nextWord_split {value : List Char} {found : Bool} {l : List Char} {w r}
    (h : nextWord value found l = .ok (w, r)) :
    (∃ d, l = d ++ r) ∧ (found = false → r.length < l.length) :=
  nextWord_split_aux l.length l le_rfl value found w r h

/-- `Parser::parse`: the driver loop.  Words are collected until `next_word`
reports the `Eos` sentinel, which ends the loop normally; any other error is
returned as the overall result. -/
def parseAux (l : List Char) : Except ParseError (List Word) :=
  match h : nextWord [] false l with
  | .ok (w, r) =>
    match parseAux r with
    | .ok ws => .ok (w :: ws)
    | .error e => .error e
  | .error .eos => .ok []
  | .error .noCloseDoubleQuote => .error .noCloseDoubleQuote
  | .error (.tokenErr e) => .error (.tokenErr e)
termination_by l.length
decreasing_by exact (nextWord_split h).2 rfl

/-- `Parser::parse` on one line, via `Parser::new`. -/
def parse (s : String) : Except ParseError (List Word) := parseAux s.data

/-- The loop body of `extract_command_names` in `main.rs`: the Boolean is the
`is_first_word` flag. -/
def extractLoop : Bool → List Word → List (List Char)
  | _, [] => []
  | true, .string c :: ws => c :: extractLoop false ws
  | false, .string _ :: ws => extractLoop false ws
  | _, .and :: ws => extractLoop true ws
  | _, .or :: ws => extractLoop true ws
  | _, .pipe :: ws => extractLoop true ws
  | _, .terminator :: ws => extractLoop true ws
  | b, .variable' _ _ :: ws => extractLoop b ws

/-- `extract_command_names` from `main.rs`: parse the line, then take every
`Word::String` that is the first word of its segment; a parse error yields
`None`. -/
def extractCommandNames (s : String) : Option (List (List Char)) :=
  match parseAux s.data with
  | .ok ws => some (extractLoop true ws)
  | .error _ => none

/-- Tokens handled by the final catch-all arm of `next_word` (appended to the
word's accumulating text). -/
def otherTok : Token → Bool
  | .ampersand => false
  | .verticalBar => false
  | .newline => false
  | .semicolon => false
  | .doubleQuote => false
  | .spaces _ => false
  | .string _ => false
  | _ => true

/-- Tokens that stop `Parser::value` without being consumed. -/
def stopTok : Token → Bool
  | .newline => true
  | .semicolon => true
  | .spaces _ => true
  | .ampersand => true
  | .verticalBar => true
  | _ => false

theorem dquote_close {l r : List Char} (h : tokNext l = .ok (.doubleQuote, r))
    (acc : List Char) : dquote acc l = .ok (acc, r) := by
  rw [dquote.eq_def]
  split <;> simp_all

theorem dquote_step {l r : List Char} {t : Token} (h : tokNext l = .ok (t, r))
    (ht : t ≠ .doubleQuote) (acc : List Char) :
    dquote acc l = dquote (acc ++ tokenText t) r := by
  rw [dquote.eq_def]
  split <;> simp_all

theorem dquote_eos {l : List Char} (h : tokNext l = .error .eos)
    (acc : List Char) : dquote acc l = .error .noCloseDoubleQuote := by
  rw [dquote.eq_def]
  split <;> simp_all

theorem dquote_mec {l : List Char} (h : tokNext l = .error .missingEscapedChar)
    (acc : List Char) : dquote acc l = .error (.tokenErr .missingEscapedChar) := by
  rw [dquote.eq_def]
  split <;> simp_all

theorem valueScan_dq {l r : List Char} (h : tokNext l = .ok (.doubleQuote, r))
    (s : List Char) : valueScan s l = dquote [] r := by
  rw [valueScan.eq_def]
  split <;> simp_all

theorem valueScan_stop {l r : List Char} {t : Token} (h : tokNext l = .ok (t, r))
    (ht : stopTok t = true) (s : List Char) : valueScan s l = .ok (s, l) := by
  rw [valueScan.eq_def]
  split <;> rename_i heq <;> rw [h] at heq <;> simp_all [stopTok]

theorem valueScan_step {l r : List Char} {t : Token} (h : tokNext l = .ok (t, r))
    (h1 : stopTok t = false) (h2 : t ≠ .doubleQuote) (s : List Char) :
    valueScan s l = valueScan (s ++ tokenText t) r := by
  rw [valueScan.eq_def]
  split <;> rename_i heq <;> rw [h] at heq <;> simp_all [stopTok]

theorem valueScan_err {l : List Char} {e : TokError} (h : tokNext l = .error e)
    (s : List Char) : valueScan s l = .error (.tokenErr e) := by
  rw [valueScan.eq_def]
  split <;> simp_all

theorem nextWord_amp {l r1 : List Char} (h : tokNext l = .ok (.ampersand, r1))
    (v : List Char) (f : Bool) :
    nextWord v f l =
      match tokNext r1 with
      | .ok (.ampersand, r2) => .ok (.and, advance r2)
      | _ => .ok (.terminator, r1) := by
  rw [nextWord.eq_def]
  split <;> simp_all

theorem nextWord_vbar {l r1 : List Char} (h : tokNext l = .ok (.verticalBar, r1))
    (v : List Char) (f : Bool) :
    nextWord v f l =
      match tokNext r1 with
      | .ok (.verticalBar, r2) => .ok (.or, advance r2)
      | _ => .ok (.pipe, r1) := by
  rw [nextWord.eq_def]
  split <;> simp_all

theorem nextWord_nl {l r1 : List Char} (h : tokNext l = .ok (.newline, r1))
    (v : List Char) (f : Bool) :
    nextWord v f l = if f then .ok (.string v, l) else .ok (.terminator, r1) := by
  rw [nextWord.eq_def]
  split <;> simp_all

theorem nextWord_semi {l r1 : List Char} (h : tokNext l = .ok (.semicolon, r1))
    (v : List Char) (f : Bool) :
    nextWord v f l = if f then .ok (.string v, l) else .ok (.terminator, r1) := by
  rw [nextWord.eq_def]
  split <;> simp_all

theorem nextWord_sp {l r1 s : List Char} (h : tokNext l = .ok (.spaces s, r1))
    (v : List Char) (f : Bool) :
    nextWord v f l = if f then .ok (.string v, r1) else nextWord v false r1 := by
  rw [nextWord.eq_def]
  split <;> simp_all

theorem nextWord_dq {l r1 : List Char} (h : tokNext l = .ok (.doubleQuote, r1))
    (v : List Char) (f : Bool) :
    nextWord v f l =
      match dquote [] r1 with
      | .ok p => .ok (.string p.1, p.2)
      | .error e => .error e := by
  rw [nextWord.eq_def]
  split <;> simp_all

theorem nextWord_str {l r1 s : List Char} (h : tokNext l = .ok (.string s, r1))
    (v : List Char) (f : Bool) :
    nextWord v f l =
      if isVariableName s then
        match tokNext r1 with
        | .ok (.equal, r2) =>
          match valueScan [] r2 with
          | .ok p => .ok (.variable' s p.1, p.2)
          | .error e => .error e
        | _ => nextWord (v ++ s) true r1
      else nextWord (v ++ s) true r1 := by
  rw [nextWord.eq_def]
  split <;> simp_all

theorem nextWord_other {l r1 : List Char} {t : Token} (h : tokNext l = .ok (t, r1))
    (ht : otherTok t = true) (v : List Char) (f : Bool) :
    nextWord v f l = nextWord (v ++ tokenText t) true r1 := by
  rw [nextWord.eq_def]
  split <;> rename_i heq <;> rw [h] at heq <;> simp_all [otherTok]

theorem nextWord_eos {l : List Char} (h : tokNext l = .error .eos)
    (v : List Char) (f : Bool) :
    nextWord v f l = if f then .ok (.string v, []) else .error .eos := by
  rw [nextWord.eq_def]
  split <;> simp_all

theorem nextWord_mec {l : List Char} (h : tokNext l = .error .missingEscapedChar)
    (v : List Char) (f : Bool) :
    nextWord v f l = .error (.tokenErr .missingEscapedChar) := by
  rw [nextWord.eq_def]
  split <;> simp_all

theorem parseAux_ok {l : List Char} {w : Word} {r : List Char}
    (h : nextWord [] false l = .ok (w, r)) :
    parseAux l =
      match parseAux r with
      | .ok ws => .ok (w :: ws)
      | .error e => .error e := by
  rw [parseAux.eq_def]
  split <;> simp_all

theorem parseAux_eos {l : List Char} (h : nextWord [] false l = .error .eos) :
    parseAux l = .ok [] := by
  rw [parseAux.eq_def]
  split <;> simp_all

theorem parseAux_err {l : List Char} {e : ParseError}
    (h : nextWord [] false l = .error e) (he : e ≠ .eos) :
    parseAux l = .error e := by
  rw [parseAux.eq_def]
  split <;> simp_all

/-!
Fuel-indexed mirrors of the four loops.  They are structurally recursive on the
fuel, hence kernel-reducible, and proven equal to the loops above whenever the
fuel exceeds the input length; every concrete evaluation below goes through
them.
-/

def dquoteF : Nat → List Char → List Char → Except ParseError (List Char × List Char)
  | 0, _, _ => .error .eos
  | n + 1, acc, l =>
    match tokNext l with
    | .ok (.doubleQuote, r) => .ok (acc, r)
    | .ok (t, r) => dquoteF n (acc ++ tokenText t) r
    | .error .eos => .error .noCloseDoubleQuote
    | .error e => .error (.tokenErr e)

def valueScanF : Nat → List Char → List Char → Except ParseError (List Char × List Char)
  | 0, _, _ => .error .eos
  | n + 1, s, l =>
    match tokNext l with
    | .ok (.doubleQuote, r) => dquoteF n [] r
    | .ok (.newline, _) => .ok (s, l)
    | .ok (.semicolon, _) => .ok (s, l)
    | .ok (.spaces _, _) => .ok (s, l)
    | .ok (.ampersand, _) => .ok (s, l)
    | .ok (.verticalBar, _) => .ok (s, l)
    | .ok (t, r) => valueScanF n (s ++ tokenText t) r
    | .error e => .error (.tokenErr e)

def nextWordF : Nat → List Char → Bool → List Char → Except ParseError (Word × List Char)
  | 0, _, _, _ => .error .eos
  | n + 1, v, f, l =>
    match tokNext l with
    | .ok (.ampersand, r1) =>
      match tokNext r1 with
      | .ok (.ampersand, r2) => .ok (.and, advance r2)
      | _ => .ok (.terminator, r1)
    | .ok (.verticalBar, r1) =>
      match tokNext r1 with
      | .ok (.verticalBar, r2) => .ok (.or, advance r2)
      | _ => .ok (.pipe, r1)
    | .ok (.newline, r1) => if f then .ok (.string v, l) else .ok (.terminator, r1)
    | .ok (.semicolon, r1) => if f then .ok (.string v, l) else .ok (.terminator, r1)
    | .ok (.spaces _, r1) => if f then .ok (.string v, r1) else nextWordF n v false r1
    | .ok (.doubleQuote, r1) =>
      match dquoteF n [] r1 with
      | .ok p => .ok (.string p.1, p.2)
      | .error e => .error e
    | .ok (.string s, r1) =>
      if isVariableName s then
        match tokNext r1 with
        | .ok (.equal, r2) =>
          match valueScanF n [] r2 with
          | .ok p => .ok (.variable' s p.1, p.2)
          | .error e => .error e
        | _ => nextWordF n (v ++ s) true r1
      else nextWordF n (v ++ s) true r1
    | .ok (t, r1) => nextWordF n (v ++ tokenText t) true r1
    | .error .eos => if f then .ok (.string v, []) else .error .eos
    | .error e => .error (.tokenErr e)

def parseAuxF : Nat → List Char → Except ParseError (List Word)
  | 0, _ => .error .eos
  | n + 1, l =>
    match nextWordF (n + 1) [] false l with
    | .ok (w, r) =>
      match parseAuxF n r with
      | .ok ws => .ok (w :: ws)
      | .error e => .error e
    | .error .eos => .ok []
    | .error .noCloseDoubleQuote => .error .noCloseDoubleQuote
    | .error (.tokenErr e) => .error (.tokenErr e)

theorem dquoteF_eq : ∀ (n : Nat) (acc l : List Char), l.length < n →
    dquoteF n acc l = dquote acc l := by
  intro n
  induction n with
  | zero => intro acc l hl; omega
  | succ n ih =>
    intro acc l hl
    simp only [dquoteF]
    split
    · rename_i r heq
      rw [dquote_close heq]
    · rename_i x t r hne heq
      rw [dquote_step heq hne]
      exact ih _ _ (by have := tokNext_length heq; omega)
    · rename_i heq
      rw [dquote_eos heq]
    · rename_i x e hne heq
      cases e with
      | eos => exact absurd rfl hne
      | missingEscapedChar => rw [dquote_mec heq]

theorem valueScanF_eq : ∀ (n : Nat) (s l : List Char), l.length < n →
    valueScanF n s l = valueScan s l := by
  intro n
  induction n with
  | zero => intro s l hl; omega
  | succ n ih =>
    intro s l hl
    simp only [valueScanF]
    split
    · rename_i r heq
      rw [valueScan_dq heq, dquoteF_eq]
      have := tokNext_length heq
      omega
    · rename_i r heq
      rw [valueScan_stop heq rfl]
    · rename_i r heq
      rw [valueScan_stop heq rfl]
    · rename_i s1 r heq
      rw [valueScan_stop heq rfl]
    · rename_i r heq
      rw [valueScan_stop heq rfl]
    · rename_i r heq
      rw [valueScan_stop heq rfl]
    · rename_i x t r h1 h2 h3 h4 h5 h6 heq
      rw [valueScan_step heq ?hstop ?hdq]
      · exact ih _ _ (by have := tokNext_length heq; omega)
      case hstop =>
        cases t <;> first
          | rfl
          | exact absurd rfl h1
          | exact absurd rfl h2
          | exact absurd rfl h3
          | exact absurd rfl h5
          | exact absurd rfl h6
          | (exfalso; exact h4 _ rfl)
      case hdq =>
        intro hdq
        subst hdq
        exact h1 rfl
    · rename_i e heq
      rw [valueScan_err heq]

theorem nextWordF_eq : ∀ (n : Nat) (v : List Char) (f : Bool) (l : List Char),
    l.length < n → nextWordF n v f l = nextWord v f l := by
  intro n
  induction n with
  | zero => intro v f l hl; omega
  | succ n ih =>
    intro v f l hl
    simp only [nextWordF]
    split
    · rename_i r1 heq
      rw [nextWord_amp heq]
    · rename_i r1 heq
      rw [nextWord_vbar heq]
    · rename_i r1 heq
      rw [nextWord_nl heq]
    · rename_i r1 heq
      rw [nextWord_semi heq]
    · rename_i s1 r1 heq
      rw [nextWord_sp heq]
      have hr1 := tokNext_length heq
      exact if_congr Iff.rfl rfl (ih _ _ _ (by omega))
    · rename_i r1 heq
      rw [nextWord_dq heq, dquoteF_eq]
      have := tokNext_length heq
      omega
    · rename_i s1 r1 heq
      rw [nextWord_str heq]
      have hr1 := tokNext_length heq
      by_cases hv : isVariableName s1 = true
      · rw [if_pos hv, if_pos hv]
        cases h2 : tokNext r1 with
        | ok p =>
          obtain ⟨t2, r2⟩ := p
          have hr2 := tokNext_length h2
          cases t2 <;> simp only [h2] <;>
            first
              | (rw [valueScanF_eq]; omega)
              | exact ih _ _ _ (by omega)
        | error e2 =>
          simp only [h2]
          exact ih _ _ _ (by omega)
      · rw [if_neg hv, if_neg hv]
        exact ih _ _ _ (by omega)
    · rename_i x t r1 h1 h2 h3 h4 h5 h6 h7 heq
      rw [nextWord_other heq ?hot]
      · exact ih _ _ _ (by have := tokNext_length heq; omega)
      case hot =>
        cases t <;> first
          | rfl
          | exact absurd rfl h1
          | exact absurd rfl h2
          | exact absurd rfl h3
          | exact absurd rfl h4
          | (exfalso; exact h5 _ rfl)
          | exact absurd rfl h6
          | (exfalso; exact h7 _ rfl)
    · rename_i heq
      rw [nextWord_eos heq]
    · rename_i x e hne heq
      cases e with
      | eos => exact absurd rfl hne
      | missingEscapedChar => rw [nextWord_mec heq]

theorem parseAuxF_eq : ∀ (n : Nat) (l : List Char), l.length < n →
    parseAuxF n l = parseAux l := by
  intro n
  induction n with
  | zero => intro l hl; omega
  | succ n ih =>
    intro l hl
    simp only [parseAuxF]
    rw [nextWordF_eq (n + 1) [] false l (by omega)]
    cases h : nextWord [] false l with
    | ok p =>
      obtain ⟨w, r⟩ := p
      rw [parseAux_ok h]
      simp only [h]
      have hr : r.length < n := by
        have h1 := (nextWord_split h).2 rfl
        omega
      rw [ih r hr]
    | error e =>
      cases e with
      | eos => rw [parseAux_eos h]
      | noCloseDoubleQuote => rw [parseAux_err h (by simp)]
      | tokenErr e2 => rw [parseAux_err h (by simp)]

/-- Fuel-based mirror of `parse`, used to evaluate concrete inputs. -/
def parseF (s : String) : Except ParseError (List Word) :=
  parseAuxF (s.data.length + 1) s.data

theorem parse_eq_parseF (s : String) : parse s = parseF s :=
  (parseAuxF_eq _ _ (by omega)).symm

/-- Discriminator: did parsing succeed? -/
def isOkResult : Except ParseError (List Word) → Bool
  | .ok _ => true
  | .error _ => false

/-- Discriminator: is the result the parser-level `Error::Eos` sentinel? -/
def isParserEos : Except ParseError (List Word) → Bool
  | .error .eos => true
  | _ => false

/-- Discriminator: is the result the token-level end-of-input sentinel wrapped
in `TokenErr`? -/
def isWrappedTokenEos : Except ParseError (List Word) → Bool
  | .error (.tokenErr .eos) => true
  | _ => false

/-- Does the list contain two adjacent copies of `c`? -/
def hasPair (c : Char) : List Char → Bool
  | a :: b :: r => (a == c && b == c) || hasPair c (b :: r)
  | _ => false

/-- Does the input contain an explicit empty quoted string, that is two
adjacent single quotes or two adjacent double quotes? -/
def hasEmptyQuote (l : List Char) : Bool :=
  hasPair '\'' l || hasPair '"' l

theorem hasPair_append_right {c : Char} : ∀ (d r : List Char),
    hasPair c r = true → hasPair c (d ++ r) = true := by
  intro d
  induction d with
  | nil => intro r h; simpa using h
  | cons x d' ih =>
    intro r h
    have h' := ih r h
    cases hd : d' ++ r with
    | nil =>
      rw [hd] at h'
      simp [hasPair] at h'
    | cons b t =>
      show hasPair c (x :: d' ++ r) = true
      rw [List.cons_append, hd]
      simp only [hasPair, Bool.or_eq_true]
      right
      rw [← hd]
      exact h'

theorem hasEmptyQuote_suffix {l r : List Char} (h : ∃ d, l = d ++ r)
    (hq : hasEmptyQuote r = true) : hasEmptyQuote l = true := by
  obtain ⟨d, rfl⟩ := h
  unfold hasEmptyQuote at hq ⊢
  rcases (Bool.or_eq_true _ _).mp hq with h1 | h2
  · exact (Bool.or_eq_true _ _).mpr (Or.inl (hasPair_append_right d _ h1))
  · exact (Bool.or_eq_true _ _).mpr (Or.inr (hasPair_append_right d _ h2))

/-- The only token whose text is empty that `tokNext` can produce is the empty
quoted string. -/
theorem tokNext_text_nil {l : List Char} {t : Token} {r : List Char}
    (h : tokNext l = .ok (t, r)) (ht : tokenText t = []) :
    t = .quotedString [] := by
  have hne := (tokNext_shape h).2
  cases t <;>
    first
      | (simp only [tokenText] at ht
         exact absurd ht (by simp))
      | (simp only [tokenText] at ht
         subst ht
         exact absurd rfl hne)
      | (simp only [tokenText] at ht
         subst ht
         rfl)

/-- An empty quoted-string token comes from two adjacent single quotes. -/
theorem tokNext_emptyQuote {l : List Char} {r : List Char}
    (h : tokNext l = .ok (.quotedString [], r)) : hasEmptyQuote l = true := by
  obtain ⟨hsp, -⟩ := tokNext_shape h
  rw [hsp]
  unfold hasEmptyQuote
  apply (Bool.or_eq_true _ _).mpr
  left
  simp [tokenConsumed, hasPair]

theorem dquote_nil_aux : ∀ (n : Nat) (l : List Char), l.length ≤ n →
    ∀ (acc : List Char) p, dquote acc l = .ok p → p.1 = [] →
    acc = [] ∧ ((∃ r', l = '"' :: r') ∨ hasEmptyQuote l = true) := by
  intro n
  induction n with
  | zero =>
    intro l hl acc p hp hnil
    have : l = [] := List.eq_nil_of_length_eq_zero (Nat.le_zero.mp hl)
    subst this
    have h0 : tokNext ([] : List Char) = .error .eos := rfl
    rw [dquote_eos h0 acc] at hp
    exact absurd hp (by simp)
  | succ n ih =>
    intro l hl acc p hp hnil
    cases h : tokNext l with
    | ok q =>
      obtain ⟨t, r⟩ := q
      by_cases hdq : t = .doubleQuote
      · subst hdq
        rw [dquote_close h acc] at hp
        cases hp
        refine ⟨hnil, Or.inl ⟨r, ?_⟩⟩
        obtain ⟨hsp, -⟩ := tokNext_shape h
        simpa [tokenConsumed, tokenText] using hsp
      · rw [dquote_step h hdq acc] at hp
        have hr : r.length ≤ n := by
          have := tokNext_length h
          omega
        obtain ⟨hacc, -⟩ := ih r hr (acc ++ tokenText t) p hp hnil
        obtain ⟨hacc1, hacc2⟩ := List.append_eq_nil.mp hacc
        refine ⟨hacc1, Or.inr ?_⟩
        have hqt := tokNext_text_nil h hacc2
        subst hqt
        exact tokNext_emptyQuote h
    | error e =>
      cases e with
      | eos =>
        rw [dquote_eos h acc] at hp
        exact absurd hp (by simp)
      | missingEscapedChar =>
        rw [dquote_mec h acc] at hp
        exact absurd hp (by simp)

theorem nextWord_nil_aux : ∀ (n : Nat) (l : List Char), l.length ≤ n →
    ∀ (v : List Char) (f : Bool) (r : List Char),
    nextWord v f l = .ok (.string [], r) →
    (v = [] ∧ f = true) ∨ hasEmptyQuote l = true := by
  intro n
  induction n with
  | zero =>
    intro l hl v f r hp
    have : l = [] := List.eq_nil_of_length_eq_zero (Nat.le_zero.mp hl)
    subst this
    have h0 : tokNext ([] : List Char) = .error .eos := rfl
    rw [nextWord_eos h0 v f] at hp
    cases hf : f
    · rw [hf, if_neg (by simp)] at hp
      exact absurd hp (by simp)
    · rw [hf, if_pos rfl] at hp
      simp only [Except.ok.injEq, Prod.mk.injEq, Word.string.injEq] at hp
      exact Or.inl ⟨hp.1, rfl⟩
  | succ n ih =>
    intro l hl v f r hp
    cases h : tokNext l with
    | error e =>
      cases e with
      | eos =>
        rw [nextWord_eos h v f] at hp
        cases hf : f
        · rw [hf, if_neg (by simp)] at hp
          exact absurd hp (by simp)
        · rw [hf, if_pos rfl] at hp
          simp only [Except.ok.injEq, Prod.mk.injEq, Word.string.injEq] at hp
          exact Or.inl ⟨hp.1, rfl⟩
      | missingEscapedChar =>
        rw [nextWord_mec h v f] at hp
        exact absurd hp (by simp)
    | ok q =>
      obtain ⟨t, r1⟩ := q
      have hr1 : r1.length ≤ n := by
        have := tokNext_length h
        omega
      cases t
      all_goals try
    (rw [nextWord_other h rfl v f] at hp
     rcases ih r1 hr1 _ true r hp with ⟨hnil, -⟩ | hq
     · exfalso
       simp [tokenText] at hnil
     · exact Or.inr (hasEmptyQuote_suffix (tokNext_suffix h) hq))
      -- remaining: ampersand, doubleQuote, newline, semicolon, verticalBar,
      -- spaces, string, quotedString
      · rw [nextWord_amp h v f] at hp
        split at hp <;> simp at hp
      · rw [nextWord_dq h v f] at hp
        split at hp
        · rename_i p1 hdq
          simp only [Except.ok.injEq, Prod.mk.injEq, Word.string.injEq] at hp
          obtain ⟨hp1, -⟩ := hp
          obtain ⟨-, hca⟩ := dquote_nil_aux r1.length r1 le_rfl [] p1 hdq hp1
          right
          obtain ⟨hsp, -⟩ := tokNext_shape h
          rcases hca with ⟨r', hr'⟩ | hq
          · rw [hsp, hr']
            unfold hasEmptyQuote
            apply (Bool.or_eq_true _ _).mpr
            right
            simp [tokenConsumed, tokenText, hasPair]
          · exact hasEmptyQuote_suffix ⟨tokenConsumed .doubleQuote, hsp⟩ hq
        · exact absurd hp (by simp)
      · rw [nextWord_nl h v f] at hp
        cases hf : f
        · rw [hf, if_neg (by simp)] at hp
          simp at hp
        · rw [hf, if_pos rfl] at hp
          simp only [Except.ok.injEq, Prod.mk.injEq, Word.string.injEq] at hp
          exact Or.inl ⟨hp.1, rfl⟩
      · rw [nextWord_semi h v f] at hp
        cases hf : f
        · rw [hf, if_neg (by simp)] at hp
          simp at hp
        · rw [hf, if_pos rfl] at hp
          simp only [Except.ok.injEq, Prod.mk.injEq, Word.string.injEq] at hp
          exact Or.inl ⟨hp.1, rfl⟩
      · rw [nextWord_vbar h v f] at hp
        split at hp <;> simp at hp
      · rw [nextWord_sp h v f] at hp
        cases hf : f
        · rw [hf, if_neg (by simp)] at hp
          rcases ih r1 hr1 v false r hp with ⟨-, hff⟩ | hq
          · simp at hff
          · exact Or.inr (hasEmptyQuote_suffix (tokNext_suffix h) hq)
        · rw [hf, if_pos rfl] at hp
          simp only [Except.ok.injEq, Prod.mk.injEq, Word.string.injEq] at hp
          exact Or.inl ⟨hp.1, rfl⟩
      · rename_i s1
        rw [nextWord_str h v f] at hp
        have hpush : nextWord (v ++ s1) true r1 = .ok (.string [], r) →
            (v = [] ∧ f = true) ∨ hasEmptyQuote l = true := by
          intro hp2
          rcases ih r1 hr1 (v ++ s1) true r hp2 with ⟨hnil, -⟩ | hq
          · exfalso
            have hne := (tokNext_shape h).2
            have hs1 : s1 = [] := (List.append_eq_nil.mp hnil).2
            subst hs1
            exact hne rfl
          · exact Or.inr (hasEmptyQuote_suffix (tokNext_suffix h) hq)
        by_cases hv : isVariableName s1 = true
        · rw [if_pos hv] at hp
          split at hp
          · split at hp <;> simp at hp
          · exact hpush hp
        · rw [if_neg hv] at hp
          exact hpush hp
      · rename_i s1
        rw [nextWord_other h rfl v f] at hp
        rcases ih r1 hr1 (v ++ tokenText (.quotedString s1)) true r hp with ⟨hnil, -⟩ | hq
        · right
          have hs1 : s1 = [] := by
            simpa [tokenText] using (List.append_eq_nil.mp hnil).2
          subst hs1
          exact tokNext_emptyQuote h
        · exact Or.inr (hasEmptyQuote_suffix (tokNext_suffix h) hq)

theorem parse_empty_word_aux : ∀ (n : Nat) (l : List Char), l.length ≤ n →
    ∀ ws, parseAux l = .ok ws → Word.string [] ∈ ws → hasEmptyQuote l = true := by
  intro n
  induction n with
  | zero =>
    intro l hl ws hp hm
    have : l = [] := List.eq_nil_of_length_eq_zero (Nat.le_zero.mp hl)
    subst this
    have h0 : tokNext ([] : List Char) = .error .eos := rfl
    have hnw : nextWord [] false [] = .error .eos := nextWord_eos h0 [] false
    rw [parseAux_eos hnw] at hp
    simp only [Except.ok.injEq] at hp
    subst hp
    simp at hm
  | succ n ih =>
    intro l hl ws hp hm
    cases h : nextWord [] false l with
    | ok q =>
      obtain ⟨w, r⟩ := q
      rw [parseAux_ok h] at hp
      cases hr : parseAux r with
      | ok ws' =>
        rw [hr] at hp
        simp only [Except.ok.injEq] at hp
        subst hp
        rcases List.mem_cons.mp hm with hw | hm'
        · rcases nextWord_nil_aux l.length l le_rfl [] false r (hw ▸ h) with ⟨-, hff⟩ | hq
          · simp at hff
          · exact hq
        · have hrl : r.length ≤ n := by
            have := (nextWord_split h).2 rfl
            omega
          exact hasEmptyQuote_suffix (nextWord_split h).1 (ih r hrl ws' hr hm')
      | error e =>
        rw [hr] at hp
        simp at hp
    | error e =>
      cases e with
      | eos =>
        rw [parseAux_eos h] at hp
        simp only [Except.ok.injEq] at hp
        subst hp
        simp at hm
      | noCloseDoubleQuote =>
        rw [parseAux_err h (by simp)] at hp
        simp at hp
      | tokenErr e2 =>
        rw [parseAux_err h (by simp)] at hp
        simp at hp

theorem parse_no_eos_aux : ∀ (n : Nat) (l : List Char), l.length ≤ n →
    isParserEos (parseAux l) = false := by
  intro n
  induction n with
  | zero =>
    intro l hl
    have : l = [] := List.eq_nil_of_length_eq_zero (Nat.le_zero.mp hl)
    subst this
    have h0 : tokNext ([] : List Char) = .error .eos := rfl
    have hnw : nextWord [] false [] = .error .eos := nextWord_eos h0 [] false
    rw [parseAux_eos hnw]
    rfl
  | succ n ih =>
    intro l hl
    cases h : nextWord [] false l with
    | ok q =>
      obtain ⟨w, r⟩ := q
      rw [parseAux_ok h]
      have hrl : r.length ≤ n := by
        have := (nextWord_split h).2 rfl
        omega
      have ihr := ih r hrl
      cases hr : parseAux r with
      | ok ws => rfl
      | error e =>
        rw [hr] at ihr
        exact ihr
    | error e =>
      cases e with
      | eos =>
        rw [parseAux_eos h]
        rfl
      | noCloseDoubleQuote =>
        rw [parseAux_err h (by simp)]
        rfl
      | tokenErr e2 =>
        rw [parseAux_err h (by simp)]
        rfl

/-- An input `echo ` followed by a single-quoted string that never closes: the
tokenizer reports `Eos`, the parser treats that as normal end of input, and
parsing succeeds with only the word before the quote. -/
theorem parse_unterminated_single_quote : ∀ (s : List Char), '\'' ∉ s →
    parseAux ('e' :: 'c' :: 'h' :: 'o' :: ' ' :: '\'' :: s)
      = .ok [Word.string ['e', 'c', 'h', 'o']] := by
  intro s hs
  have h1 : tokNext ('e' :: 'c' :: 'h' :: 'o' :: ' ' :: '\'' :: s)
      = .ok (.string ['e', 'c', 'h', 'o'], ' ' :: '\'' :: s) := rfl
  have h2 : tokNext (' ' :: '\'' :: s) = .ok (.spaces [' '], '\'' :: s) := rfl
  have h3 : tokNext ('\'' :: s) = .error .eos := by
    simp [tokNext, singleQuotedString_none hs]
  have hw1 : nextWord [] false ('e' :: 'c' :: 'h' :: 'o' :: ' ' :: '\'' :: s)
      = .ok (.string ['e', 'c', 'h', 'o'], '\'' :: s) := by
    rw [nextWord_str h1, if_pos (show isVariableName ['e', 'c', 'h', 'o'] = true from rfl)]
    simp only [h2, List.nil_append]
    rw [nextWord_sp h2, if_pos rfl]
  have hw2 : nextWord [] false ('\'' :: s) = .error .eos := by
    rw [nextWord_eos h3, if_neg (by simp)]
  rw [parseAux_ok hw1, parseAux_eos hw2]

/-- A trailing backslash that is preceded by at least one ordinary character
inside the same raw-text run makes `raw_string` fail with
`MissingEscapedChar`, which parsing surfaces as `TokenErr`. -/
theorem parse_trailing_backslash : ∀ (c : Char), charToken c = none →
    isSpaceTab c = false → c ≠ '\'' → c ≠ '\\' →
    parseAux ['e', 'c', 'h', 'o', ' ', c, '\\']
      = .error (.tokenErr .missingEscapedChar) := by
  intro c hct hsp hq hbs
  have h1 : tokNext ['e', 'c', 'h', 'o', ' ', c, '\\']
      = .ok (.string ['e', 'c', 'h', 'o'], [' ', c, '\\']) := rfl
  have hsr : spacesRun [c, '\\'] = ([], [c, '\\']) := by
    simp only [spacesRun, hsp]
    rw [if_neg (by simp)]
  have h2 : tokNext [' ', c, '\\'] = .ok (.spaces [' '], [c, '\\']) := by
    simp only [tokNext]
    rw [if_neg (show ¬ (' ' = '\'') by decide),
      if_pos (show isSpaceTab ' ' = true from rfl), hsr]
  have hrs : rawString [c] ['\\'] = .error .missingEscapedChar := rfl
  have h3 : tokNext [c, '\\'] = .error .missingEscapedChar := by
    simp only [tokNext]
    rw [if_neg hq, hsp, if_neg (by simp), hct, hrs]
  have hw1 : nextWord [] false ['e', 'c', 'h', 'o', ' ', c, '\\']
      = .ok (.string ['e', 'c', 'h', 'o'], [c, '\\']) := by
    rw [nextWord_str h1, if_pos (show isVariableName ['e', 'c', 'h', 'o'] = true from rfl)]
    simp only [h2, List.nil_append]
    rw [nextWord_sp h2, if_pos rfl]
  have hw2 : nextWord [] false [c, '\\'] = .error (.tokenErr .missingEscapedChar) :=
    nextWord_mec h3 [] false
  rw [parseAux_ok hw1, parseAux_err hw2 (by simp)]

/-- Parsing an explicit empty single-quoted string yields one empty word. -/
theorem parse_two_single_quotes : parseAux ['\'', '\''] = .ok [Word.string []] := by
  rw [← parseAuxF_eq 3 ['\'', '\''] (by decide)]
  rfl

/-!
Claim theorems.
-/

/-- Claim C1, counterexample.  The claim says parsing the input consisting of
`echo `, a single quote and `abc` fails with an unterminated-quote error
rather than returning Ok; in fact parse returns Ok with the single word
`echo`, silently dropping the unterminated quoted tail. -/
theorem claim_C1_counterexample :
    parse "echo 'abc" = .ok [Word.string ['e', 'c', 'h', 'o']] ∧
    isOkResult (parse "echo 'abc") = true := by
  constructor
  · rw [parse_eq_parseF]
    rfl
  · rw [parse_eq_parseF]
    rfl

/-- Claim C1, amended.  No UnterminatedQuote error exists in the code, and
what an unterminated single quote produces depends on where it is met.  At
word position `next_word` maps the quote scan's end-of-stream sentinel to
normal end of input, so parse returns Ok with only the words before the
quote: for any tail with no further quote, `echo ` followed by the
unterminated quoted tail parses to Ok with the single word `echo`, and a
line that is nothing but an unterminated quoted tail parses to Ok with no
words.  Met inside an assignment value the same sentinel is wrapped and
surfaced, so `FOO='abc` fails with TokenErr Eos; met inside a double-quoted
string it becomes NoCloseDoubleQuote, as for `"'abc` — in no case an
unterminated-single-quote-specific error. -/
theorem claim_C1 :
    (∀ (s : List Char), '\'' ∉ s →
      parseAux ('e' :: 'c' :: 'h' :: 'o' :: ' ' :: '\'' :: s)
        = .ok [Word.string ['e', 'c', 'h', 'o']]) ∧
    (∀ (s : List Char), '\'' ∉ s → parseAux ('\'' :: s) = .ok []) ∧
    parse "FOO='abc" = .error (.tokenErr .eos) ∧
    parse "\"'abc" = .error .noCloseDoubleQuote := by
  refine ⟨parse_unterminated_single_quote, ?_, ?_, ?_⟩
  · intro s hs
    have h3 : tokNext ('\'' :: s) = .error .eos := by
      simp [tokNext, singleQuotedString_none hs]
    have hw : nextWord [] false ('\'' :: s) = .error .eos := by
      rw [nextWord_eos h3, if_neg (by simp)]
    exact parseAux_eos hw
  · rw [parse_eq_parseF]
    rfl
  · rw [parse_eq_parseF]
    rfl

/-- Claim C1, witness: the amended theorem's two quantified parts applied at
the tail `abc`, discharging the no-quote hypothesis there. -/
theorem claim_C1_witness :
    parseAux ('e' :: 'c' :: 'h' :: 'o' :: ' ' :: '\'' :: ['a', 'b', 'c'])
      = .ok [Word.string ['e', 'c', 'h', 'o']] ∧
    parseAux ('\'' :: ['a', 'b', 'c']) = .ok [] :=
  ⟨claim_C1.1 ['a', 'b', 'c'] (by decide), claim_C1.2.1 ['a', 'b', 'c'] (by decide)⟩

/-- Claim C2, counterexample.  The claim says `--color="auto"` parses to the
single Plain word `--color=auto`; in fact the double-quote arm of `next_word`
returns only the quoted content and discards the accumulated `--color=`, so
the result is the single word `auto`. -/
theorem claim_C2_counterexample :
    parse "--color=\"auto\"" = .ok [Word.string ['a', 'u', 't', 'o']] ∧
    [Word.string ['a', 'u', 't', 'o']]
      ≠ [Word.string ['-', '-', 'c', 'o', 'l', 'o', 'r', '=', 'a', 'u', 't', 'o']] := by
  constructor
  · rw [parse_eq_parseF]
    rfl
  · decide

/-- Claim C2, amended.  A double quote met while scanning a word makes
`next_word` return only the double-quoted content as the whole word,
discarding any previously accumulated text: `--color="auto"` parses to the
single Plain word `auto`.  Adjacent raw and single-quoted fragments are
concatenated as the claim describes: `--color='auto'` parses to the single
Plain word `--color=auto`. -/
theorem claim_C2 :
    parse "--color=\"auto\"" = .ok [Word.string ['a', 'u', 't', 'o']] ∧
    parse "--color='auto'"
      = .ok [Word.string ['-', '-', 'c', 'o', 'l', 'o', 'r', '=', 'a', 'u', 't', 'o']] := by
  constructor
  · rw [parse_eq_parseF]
    rfl
  · rw [parse_eq_parseF]
    rfl

/-- Claim C3.  The claim says that after consuming `&&` no further token is
consumed, so `ls &&head` parses to Plain `ls`, And, Plain `head`.  The code
performs one extra `next()` after `eat_token` already consumed the second
ampersand, so the token `head` is consumed and dropped: evaluating the code
at the failing input gives Ok with only Plain `ls` and And. -/
theorem claim_C3 :
    parse "ls &&head" = .ok [Word.string ['l', 's'], Word.and] := by
  rw [parse_eq_parseF]
  rfl

/-- Claim C4, counterexample.  The claim says accumulated text is emitted as a
Plain word before any control operator, so `a|b` parses to Plain `a`, Pipe,
Plain `b`; in fact the vertical-bar arm of `next_word` never checks the
accumulated-text flag and returns Pipe immediately, discarding `a`. -/
theorem claim_C4_counterexample :
    parse "a|b" = .ok [Word.pipe, Word.string ['b']] ∧
    [Word.pipe, Word.string ['b']]
      ≠ [Word.string ['a'], Word.pipe, Word.string ['b']] := by
  constructor
  · rw [parse_eq_parseF]
    rfl
  · decide

/-- Claim C4, amended.  Only the newline and semicolon arms of `next_word`
finalize an in-progress word first: `a;b` parses to Plain `a`, Terminator,
Plain `b`.  The ampersand and vertical-bar arms discard accumulated text:
`a&b` parses to Terminator, Plain `b`, and `a&&b` parses to just And (the
extra advance after `&&` also swallows `b`). -/
theorem claim_C4 :
    parse "a;b" = .ok [Word.string ['a'], Word.terminator, Word.string ['b']] ∧
    parse "a&b" = .ok [Word.terminator, Word.string ['b']] ∧
    parse "a&&b" = .ok [Word.and] := by
  refine ⟨?_, ?_, ?_⟩ <;> (rw [parse_eq_parseF]; rfl)

/-- Claim C5, counterexample.  The claim says every input ending in an
unescaped backslash fails with DanglingEscape, in particular when the
backslash is the first character of its unquoted run; but in `echo \` the
backslash begins its own run, `Tokenizer::next` consumes it before
`raw_string` can see it, and parsing succeeds with the backslash as a
one-character word. -/
theorem claim_C5_counterexample :
    parse "echo \\" = .ok [Word.string ['e', 'c', 'h', 'o'], Word.string ['\\']] ∧
    isOkResult (parse "echo \\") = true := by
  constructor
  · rw [parse_eq_parseF]
    rfl
  · rw [parse_eq_parseF]
    rfl

/-- Claim C5, amended.  Parsing fails with the dangling-escape error
(`MissingEscapedChar`, wrapped in `TokenErr`) for a trailing unescaped
backslash only when the backslash is preceded by at least one ordinary
character inside the same unquoted text run; for any ordinary character `c`
the input `echo c\` fails that way.  When the trailing backslash starts its
own run, as in `echo \`, it is returned as a literal one-character word and
parse succeeds. -/
theorem claim_C5 : ∀ (c : Char), charToken c = none →
    isSpaceTab c = false → c ≠ '\'' → c ≠ '\\' →
    parseAux ['e', 'c', 'h', 'o', ' ', c, '\\']
      = .error (.tokenErr .missingEscapedChar) :=
  parse_trailing_backslash

/-- Claim C5, witness: the amended theorem applied at `c` equal to `a`. -/
theorem claim_C5_witness :
    parseAux ['e', 'c', 'h', 'o', ' ', 'a', '\\']
      = .error (.tokenErr .missingEscapedChar) :=
  claim_C5 'a' rfl rfl (by decide) (by decide)

/-- Claim C6.  Command-name extraction takes the first Plain word after
start-of-line or after any And, Or, Pipe or Terminator marker, skipping
assignments: for `a && b | c ; d` the extracted command list is `a`, `b`,
`c`, `d`, and for `FOO=1 ls` the assignment is skipped and the list is `ls`. -/
theorem claim_C6 :
    extractCommandNames "a && b | c ; d" = some [['a'], ['b'], ['c'], ['d']] ∧
    extractCommandNames "FOO=1 ls" = some [['l', 's']] := by
  have hp1 : parseAux ("a && b | c ; d").data
      = .ok [Word.string ['a'], Word.and, Word.string ['b'], Word.pipe,
        Word.string ['c'], Word.terminator, Word.string ['d']] := by
    rw [← parseAuxF_eq 15 _ (by decide)]
    rfl
  have hp2 : parseAux ("FOO=1 ls").data
      = .ok [Word.variable' ['F', 'O', 'O'] ['1'], Word.string ['l', 's']] := by
    rw [← parseAuxF_eq 9 _ (by decide)]
    rfl
  constructor
  · unfold extractCommandNames
    rw [hp1]
    rfl
  · unfold extractCommandNames
    rw [hp2]
    rfl

/-- Claim C7.  On every input on which parse succeeds, an empty Plain word in
the result can only originate from an explicit empty quoted string: if the
word list contains the empty string word, the input contains two adjacent
single quotes or two adjacent double quotes. -/
theorem claim_C7 : ∀ (l : List Char) (ws : List Word),
    parseAux l = .ok ws → Word.string [] ∈ ws → hasEmptyQuote l = true :=
  fun l ws hp hm => parse_empty_word_aux l.length l le_rfl ws hp hm

/-- Claim C7, witness: the theorem applied to the two-quote input, whose parse
result is the single empty word. -/
theorem claim_C7_witness : hasEmptyQuote ['\'', '\''] = true :=
  claim_C7 ['\'', '\''] [Word.string []] parse_two_single_quotes (by simp)

/-- Claim C8, counterexample.  The claim says the internal end-of-input
sentinel is never surfaced as the result of parse; but when an assignment
value scan reaches end of input, `Parser::value` wraps the token-level `Eos`
sentinel in `TokenErr` and parse returns it: input `FOO=`. -/
theorem claim_C8_counterexample :
    parse "FOO=" = .error (.tokenErr .eos) ∧
    isWrappedTokenEos (parse "FOO=") = true := by
  constructor
  · rw [parse_eq_parseF]
    rfl
  · rw [parse_eq_parseF]
    rfl

/-- Claim C8, amended.  Parse is total by construction (every scanning step
consumes input, which is what the termination proofs of the loop definitions
encode), and the parser-level `Eos` sentinel is never the result of parse;
however the token-level end-of-input sentinel can surface wrapped as
`TokenErr Eos` (see the counterexample). -/
theorem claim_C8 : ∀ (l : List Char), isParserEos (parseAux l) = false :=
  fun l => parse_no_eos_aux l.length l le_rfl

/-- Claim C9, counterexample.  The claim says the equal-sign token is always
appended to the current word as a literal character; but after a String token
that is a valid variable name, `next_word` consumes the `=` as an assignment
separator instead: `a=b ` parses to one Assignment word, not to the Plain
word `a=b`. -/
theorem claim_C9_counterexample :
    parse "a=b " = .ok [Word.variable' ['a'] ['b']] ∧
    [Word.variable' ['a'] ['b']] ≠ [Word.string ['a', '=', 'b']] := by
  constructor
  · rw [parse_eq_parseF]
    rfl
  · decide

/-- Claim C9, amended.  The operator tokens dollar, less-than, greater-than,
parentheses, brackets, braces, asterisk and tilda never terminate a word and
never produce an operator word; each is appended to the accumulating text as
its literal character, so `a$b*c` is one Plain word, as is a word using the
remaining characters.  The equal sign behaves that way only when it does not
immediately follow a String token that is a valid variable name; in that
position it triggers assignment parsing instead (see the counterexample). -/
theorem claim_C9 :
    parse "a$b*c" = .ok [Word.string ['a', '$', 'b', '*', 'c']] ∧
    parse "a$b*c<d>(e)[f]~g"
      = .ok [Word.string ['a', '$', 'b', '*', 'c', '<', 'd', '>', '(', 'e', ')',
        '[', 'f', ']', '~', 'g']] ∧
    parseAux ['a', '\x7b', 'b', '\x7d', 'c']
      = .ok [Word.string ['a', '\x7b', 'b', '\x7d', 'c']] ∧
    parse "--color=auto"
      = .ok [Word.string ['-', '-', 'c', 'o', 'l', 'o', 'r', '=', 'a', 'u', 't', 'o']] := by
  refine ⟨?_, ?_, ?_, ?_⟩
  · rw [parse_eq_parseF]
    rfl
  · rw [parse_eq_parseF]
    rfl
  · rw [← parseAuxF_eq 6 _ (by decide)]
    rfl
  · rw [parse_eq_parseF]
    rfl

/-- Claim C10.  When scanning an assignment value, a double quote makes
`Parser::value` return only the double-quoted content as the whole value,
discarding the value text accumulated before the quote: `FOO=a"b"` parses to
the single Assignment word with name `FOO` and value `b`, the unquoted `a`
absent from the result. -/
theorem claim_C10 :
    parse "FOO=a\"b\"" = .ok [Word.variable' ['F', 'O', 'O'] ['b']] := by
  rw [parse_eq_parseF]
  rfl

end Tk
